import Mathlib

/-!
Verification of the chunked-transcription core of ExactTranscriber.

The Python sources are embedded shallowly: strings are `List Char` (wrapped in
`String` at the boundaries), Python integers are `Nat` (all quantities involved
are non-negative and Python integers are unbounded), and code that can raise an
uncaught exception is embedded in `Except Unit`.  The digit class of the
timestamp regular expressions is modelled as ASCII `0`-`9` (the only digits the
system's own grammar and prompts produce).
-/

namespace ExactTranscriber

/-! ### Python string primitives -/

/-- Whitespace characters stripped by Python `str.strip()` (ASCII range). -/
def isPySpace (c : Char) : Bool :=
  c = ' ' || c = '\t' || c = '\n' || c = '\r' || c = '\x0b' || c = '\x0c'

/-- Python `s.strip()` on a list of characters. -/
def stripChars (l : List Char) : List Char :=
  ((l.dropWhile isPySpace).reverse.dropWhile isPySpace).reverse

/-- Python `s.split(sep)` for a one-character separator: splits on every
occurrence, keeping empty pieces, and yields `[""]` on the empty string. -/
def splitOnChar (sep : Char) : List Char → List (List Char)
  | [] => [[]]
  | c :: rest =>
    if c = sep then [] :: splitOnChar sep rest
    else
      match splitOnChar sep rest with
      | [] => [[c]]
      | l :: ls => (c :: l) :: ls

/-- Python `sep.join(pieces)`. -/
def joinWith (sep : List Char) : List (List Char) → List Char
  | [] => []
  | [l] => l
  | l :: ls => l ++ sep ++ joinWith sep ls

/-- Numeric value of an ASCII digit character. -/
def digitVal (c : Char) : Nat := c.toNat - 48

/-- Value of a decimal digit string (most significant digit first). -/
def digitsVal (l : List Char) : Nat := l.foldl (fun acc c => acc * 10 + digitVal c) 0

/-- Python `int(s)` restricted to the strings it is applied to here: the pieces
of a `[\d:]+` run split on `:`, i.e. strings of decimal digits.  `int("")`
raises `ValueError`, modelled as `none`. -/
def toNatOpt (l : List Char) : Option Nat :=
  if l.isEmpty then none
  else if l.all Char.isDigit then some (digitsVal l) else none

/-- Decimal digit characters of `n`, most significant first, computed with
explicit fuel so the definition is structural. -/
def natCharsAux : Nat → Nat → List Char
  | 0, _ => []
  | fuel + 1, n =>
    if n < 10 then [Nat.digitChar n]
    else natCharsAux fuel (n / 10) ++ [Nat.digitChar (n % 10)]

/-- Python `str(n)` for a non-negative integer. -/
def natChars (n : Nat) : List Char := natCharsAux (n + 1) n

/-- Python `"%02d" % n` for a non-negative integer: zero-padded to width 2,
wider numbers printed in full. -/
def pad2 (n : Nat) : List Char := if n < 10 then '0' :: natChars n else natChars n

/-- Python `s.zfill(8)`: pad on the left with `'0'` to length 8. -/
def zfill8 (l : List Char) : List Char :=
  if l.length < 8 then List.replicate (8 - l.length) '0' ++ l else l

/-! ### The line grammar shared by the rebaser and the export encoders -/

/-- Characters matched by the `[\d:]` class of the timestamp regexes. -/
def isTsChar (c : Char) : Bool := c.isDigit || c = ':'

/-- Python blank-line test `not line.strip()`. -/
def isBlankLine (l : List Char) : Bool := (stripChars l).isEmpty

/-- Python test `line.strip() == '[END]'`. -/
def isEndLine (l : List Char) : Bool := stripChars l == "[END]".data

/-- Embeds `re.match(r'\[([\d:]+)\](.*)', line)` from
`transcript_utils.adjust_chunk_timestamps`: the line must start with `[`,
followed by a non-empty run of digits/colons, then `]`; the rest of the line is
the content group.  Backtracking cannot produce any other decomposition because
`]` is not in the bracketed class. -/
def matchTimestampLine (l : List Char) : Option (List Char × List Char) :=
  match l with
  | [] => none
  | c :: rest =>
    if c = '[' then
      let ts := rest.takeWhile isTsChar
      if ts.isEmpty then none
      else
        match rest.dropWhile isTsChar with
        | [] => none
        | d :: content => if d = ']' then some (ts, content) else none
    else none

/-- Embeds `re.match(r'\[([\d:]+)\]\s*(.*)', line)` used by the SRT and JSON
export branches: like `matchTimestampLine` but the whitespace after `]` is
consumed before the content group. -/
def matchTimestampLineWs (l : List Char) : Option (List Char × List Char) :=
  match matchTimestampLine l with
  | some (ts, content) => some (ts, content.dropWhile isPySpace)
  | none => none

/-! ### Chunk Splitter arithmetic (`file_utils.chunk_audio_file`, lines 142-145) -/

/-- Embeds the chunk-count computation of `chunk_audio_file`:
`num_chunks = (total_duration // chunk_duration_ms) + (1 if total_duration % chunk_duration_ms > 0 else 0)`. -/
def num_chunks (total_duration chunk_duration_ms : Nat) : Nat :=
  total_duration / chunk_duration_ms +
    (if total_duration % chunk_duration_ms > 0 then 1 else 0)

/-! ### Stitcher (`transcript_utils.combine_transcriptions`) -/

/-- Embeds the loop of `combine_transcriptions` at the level of line lists:
every chunk except the last has its `[END]` lines removed, the last chunk's
lines are kept verbatim, and all lines are concatenated in order. -/
def combineLines : List (List Char) → List (List Char)
  | [] => []
  | [chunk] => splitOnChar '\n' chunk
  | chunk :: rest =>
    (splitOnChar '\n' chunk).filter (fun l => !(isEndLine l)) ++ combineLines rest

/-- Embeds `combine_transcriptions` end to end: split each chunk on newlines,
filter as above, and join with newlines. -/
def combine_transcriptions (chunks : List String) : String :=
  ⟨joinWith ['\n'] (combineLines (chunks.map String.data))⟩

/-- Number of lines of `ls` that trim to `[END]`. -/
def countEnd (ls : List (List Char)) : Nat := (ls.filter isEndLine).length

/-! ### Fallback Policy (`transcription_processor._process_large_file`, lines 117-123) -/

inductive LargeFileOutcome
  | stitched (transcript : String)
  | fallbackWholeFile
  deriving DecidableEq

/-- Embeds the accept-or-fallback decision of `_process_large_file`:
`if all_transcriptions and len(all_transcriptions) >= num_chunks * MIN_CHUNK_SUCCESS_PERCENTAGE`
with `MIN_CHUNK_SUCCESS_PERCENTAGE = 0.8` (`config.py`).  The Python comparison
multiplies by the IEEE double `0.8`; the comparison is modelled exactly as the
rational inequality `5 * len >= 4 * num_chunks`.  At the claim's instance
`num_chunks = 5` the double product `5 * 0.8` is exactly `4.0`, so the model and
the float comparison agree there.  On acceptance the chunk transcripts are
stitched by `combine_transcriptions`; otherwise they are discarded and one
whole-file transcription call (`_process_small_file`) is made. -/
def processLargeFileDecision (allTranscriptions : List String) (numChunks : Nat) :
    LargeFileOutcome :=
  if allTranscriptions ≠ [] ∧ 5 * allTranscriptions.length ≥ 4 * numChunks then
    .stitched (combine_transcriptions allTranscriptions)
  else
    .fallbackWholeFile

/-! ### Timestamp Rebaser (`transcript_utils.adjust_chunk_timestamps`; the
variant in `utils.py` lines 361-438 is line-for-line identical in the
behaviour modelled here) -/

/-- Embeds the per-line body of `adjust_chunk_timestamps` for a given
`base_minutes`: a line that fails the timestamp regex is kept as is; a matched
timestamp is split on `:`, its parts converted with `int`, the minutes shifted
by `base_minutes` with carry into hours, and re-serialized in the original
arity — the 2-part format prints only minutes and seconds, silently discarding
any hour carry.  A `ValueError` (empty part or an arity other than 2 or 3) is
caught and the original line kept. -/
def adjustLine (base : Nat) (line : List Char) : List Char :=
  match matchTimestampLine line with
  | none => line
  | some (ts, content) =>
    match splitOnChar ':' ts with
    | [p1, p2] =>
      match toNatOpt p1, toNatOpt p2 with
      | some minutes, some seconds =>
        let adjusted := minutes + base
        let adjusted2 := if 60 ≤ adjusted then adjusted % 60 else adjusted
        '[' :: (pad2 adjusted2 ++ ':' :: pad2 seconds ++ ']' :: content)
      | _, _ => line
    | [p1, p2, p3] =>
      match toNatOpt p1, toNatOpt p2, toNatOpt p3 with
      | some hours, some minutes, some seconds =>
        let adjusted := minutes + base
        let hours2 := if 60 ≤ adjusted then hours + adjusted / 60 else hours
        let adjusted2 := if 60 ≤ adjusted then adjusted % 60 else adjusted
        '[' :: (pad2 hours2 ++ ':' :: pad2 adjusted2 ++ ':' :: pad2 seconds ++ ']' :: content)
      | _, _, _ => line
    | _ => line

/-- Embeds the line loop of `adjust_chunk_timestamps`: blank lines and `[END]`
lines are skipped, every other line is adjusted and appended. -/
def adjustLines (base : Nat) : List (List Char) → List (List Char)
  | [] => []
  | line :: rest =>
    if isBlankLine line || isEndLine line then adjustLines base rest
    else adjustLine base line :: adjustLines base rest

/-- Embeds `adjust_chunk_timestamps` end to end, with
`base_minutes = (chunk_index * chunk_duration_ms) // 60000`. -/
def adjust_chunk_timestamps (transcription : String)
    (chunk_index chunk_duration_ms : Nat) : String :=
  ⟨joinWith ['\n']
    (adjustLines (chunk_index * chunk_duration_ms / 60000)
      (splitOnChar '\n' transcription.data))⟩

/-! ### Error sanitization -/

def redactedToken : List Char := "[REDACTED]".data

/-- Replacement applied to one maximal alphanumeric run: runs of 32 or more
characters are redacted, shorter runs are kept. -/
def emitRun (run : List Char) : List Char :=
  if 32 ≤ run.length then redactedToken else run

/-- Modelled from the spec: `sanitize_error_message` is imported from `utils`
by `transcription_processor.py` (line 23) and `api_client.py`, but no
definition of it exists anywhere under `src/`.  The spec (§7) says of it that
"API-key-shaped tokens (long alphanumeric runs ≥32 chars, and a specific
provider key pattern) are redacted, and user/home directory path fragments are
redacted".  This models the alphanumeric-run pass: scanning left to right,
every maximal run of alphanumeric characters of length at least 32 is replaced
by the placeholder `[REDACTED]`.  The provider-key pattern and the
home-directory pass, which only redact further material, are not modelled.
`run` accumulates the current alphanumeric run. -/
def sanitizeAux : List Char → List Char → List Char
  | run, [] => emitRun run
  | run, c :: rest =>
    if c.isAlphanum then sanitizeAux (run ++ [c]) rest
    else emitRun run ++ c :: sanitizeAux [] rest

/-- Modelled from the spec: see `sanitizeAux`. -/
def sanitize_error_message (msg : String) : String := ⟨sanitizeAux [] msg.data⟩

/-! ### SRT timestamp conversion (`transcript_utils.convert_timestamp_to_srt`)
and the export encoders (`transcript_utils.format_transcript_for_export`) -/

def isBracket (c : Char) : Bool := c = '[' || c = ']'

/-- Python `s.strip('[]')`: remove every leading and trailing `[` or `]`. -/
def stripBrackets (l : List Char) : List Char :=
  ((l.dropWhile isBracket).reverse.dropWhile isBracket).reverse

/-- Python `str(datetime.timedelta(seconds=totalSeconds))` for a non-negative
whole number of seconds: `H:MM:SS` with unpadded hours below one day, prefixed
by `D day, ` or `D days, ` from 24 hours on. -/
def timedeltaStr (totalSeconds : Nat) : List Char :=
  let days := totalSeconds / 86400
  let hh := totalSeconds % 86400 / 3600
  let mm := totalSeconds % 3600 / 60
  let ss := totalSeconds % 60
  let hms := natChars hh ++ ':' :: pad2 mm ++ ':' :: pad2 ss
  if days = 0 then hms
  else if days = 1 then natChars days ++ " day, ".data ++ hms
  else natChars days ++ " days, ".data ++ hms

/-- Embeds `convert_timestamp_to_srt`: strip brackets, split on `:`, convert
the 2 or 3 parts with `int`, and format `timedelta(hours, minutes, seconds)`
as `str(...).zfill(8)` followed by `,000`; any other arity, or an `int`
failure (caught by the `except`), yields `00:00:00,000`. -/
def convert_timestamp_to_srt (timestamp : List Char) : List Char :=
  let ts := stripBrackets timestamp
  match splitOnChar ':' ts with
  | [p1, p2, p3] =>
    match toNatOpt p1, toNatOpt p2, toNatOpt p3 with
    | some h, some m, some s =>
      zfill8 (timedeltaStr (h * 3600 + m * 60 + s)) ++ ",000".data
    | _, _, _ => "00:00:00,000".data
  | [p1, p2] =>
    match toNatOpt p1, toNatOpt p2 with
    | some m, some s => zfill8 (timedeltaStr (m * 60 + s)) ++ ",000".data
    | _, _ => "00:00:00,000".data
  | _ => "00:00:00,000".data

/-- The start time emitted by the SRT branch for a matched timestamp group
`ts`: the source calls `convert_timestamp_to_srt(f"[{timestamp}]")`. -/
def srtStartTime (ts : List Char) : List Char :=
  convert_timestamp_to_srt ('[' :: ts ++ [']'])

/-- The end time emitted by the SRT branch: the start `timedelta` plus a fixed
3-second window, serialized as `str(end_delta).zfill(8)` followed by `,000`. -/
def srtEndTime (startSeconds : Nat) : List Char :=
  zfill8 (timedeltaStr (startSeconds + 3)) ++ ",000".data

/-- Embeds the body of the SRT branch for one matched line: compute the start
time, re-convert the timestamp parts with `int` (this `ValueError` is NOT
caught in `format_transcript_for_export` and aborts the whole export — hence
`Except`), determine the start offset by arity, and emit the four caption
lines (index, time range, stripped content, blank separator). -/
def srtEntryFor (counter : Nat) (ts content : List Char) :
    Except Unit (List (List Char)) :=
  let start_time := srtStartTime ts
  match (splitOnChar ':' ts).mapM toNatOpt with
  | none => .error ()
  | some vals =>
    let startSeconds :=
      match vals with
      | [h, m, s] => h * 3600 + m * 60 + s
      | [m, s] => m * 60 + s
      | _ => 0
    .ok [natChars counter, start_time ++ " --> ".data ++ srtEndTime startSeconds,
         stripChars content, []]

/-- Embeds the SRT branch's line loop: blank and `[END]` lines are skipped,
unmatched lines are skipped, matched lines emit a caption and advance the
counter. -/
def srtLines (counter : Nat) : List (List Char) → Except Unit (List (List Char))
  | [] => .ok []
  | line :: rest =>
    if isBlankLine line || isEndLine line then srtLines counter rest
    else
      match matchTimestampLineWs line with
      | none => srtLines counter rest
      | some (ts, content) =>
        match srtEntryFor counter ts content with
        | .error e => .error e
        | .ok entry => (srtLines (counter + 1) rest).map (fun ls => entry ++ ls)

/-- Embeds `re.match(r'([^:]+):\s*(.*)', content)` of the JSON branch: a
non-empty colon-free prefix, a colon, then the text after any whitespace. -/
def matchSpeaker (content : List Char) : Option (List Char × List Char) :=
  let speaker := content.takeWhile (fun c => c != ':')
  if speaker.isEmpty then none
  else
    match content.dropWhile (fun c => c != ':') with
    | [] => none
    | d :: rest => if d = ':' then some (speaker, rest.dropWhile isPySpace) else none

/-- One record of the JSON export, with Python's dict insertion order of the
keys baked into the constructor. -/
inductive JsonEntry
  | event (timestamp content : List Char)
  | speech (timestamp speaker content : List Char)
  | other (timestamp content : List Char)
  deriving DecidableEq

/-- Embeds the JSON branch's per-line classification: content bracketed on
both sides is an event (brackets stripped); content with a speaker match is
speech; anything else is other. -/
def jsonEntryFor (ts content : List Char) : JsonEntry :=
  if content.head? = some '[' ∧ content.getLast? = some ']' then
    .event ts (stripBrackets content)
  else
    match matchSpeaker content with
    | some (speaker, text) => .speech ts (stripChars speaker) (stripChars text)
    | none => .other ts (stripChars content)

/-- Embeds the JSON branch's line loop. -/
def jsonEntries : List (List Char) → List JsonEntry
  | [] => []
  | line :: rest =>
    if isBlankLine line || isEndLine line then jsonEntries rest
    else
      match matchTimestampLineWs line with
      | none => jsonEntries rest
      | some (ts, content) => jsonEntryFor ts content :: jsonEntries rest

/-- Four lowercase hexadecimal digits of `n < 65536`. -/
def hex4 (n : Nat) : List Char :=
  [Nat.digitChar (n / 4096 % 16), Nat.digitChar (n / 256 % 16),
   Nat.digitChar (n / 16 % 16), Nat.digitChar (n % 16)]

/-- Python `json.dumps` escape `\uXXXX` for one character, with a surrogate
pair for characters beyond the basic plane. -/
def uEscape (c : Char) : List Char :=
  let n := c.toNat
  if n < 65536 then '\\' :: 'u' :: hex4 n
  else
    let m := n - 65536
    ('\\' :: 'u' :: hex4 (55296 + m / 1024)) ++ ('\\' :: 'u' :: hex4 (56320 + m % 1024))

/-- Escape of one character in a `json.dumps` string literal with the default
`ensure_ascii=True`. -/
def jsonEscapeChar (c : Char) : List Char :=
  if c = '"' then ['\\', '"']
  else if c = '\\' then ['\\', '\\']
  else if c = '\n' then ['\\', 'n']
  else if c = '\t' then ['\\', 't']
  else if c = '\r' then ['\\', 'r']
  else if c = '\x08' then ['\\', 'b']
  else if c = '\x0c' then ['\\', 'f']
  else if c.toNat < 32 ∨ 126 < c.toNat then uEscape c
  else [c]

def jsonEscape (l : List Char) : List Char := (l.map jsonEscapeChar).flatten

/-- A `json.dumps` string literal. -/
def jsonQuote (l : List Char) : List Char := '"' :: jsonEscape l ++ ['"']

/-- One `"key": "value"` item of a serialized record. -/
def jsonField (key val : List Char) : List Char :=
  jsonQuote key ++ ':' :: ' ' :: jsonQuote val

/-- Serialization of one record as `json.dumps(..., indent=2)` prints it
inside the transcript array (entry braces at indent 4, fields at indent 6). -/
def renderEntry (e : JsonEntry) : List Char :=
  let fields :=
    match e with
    | .event ts c =>
      [jsonField "timestamp".data ts, jsonField "type".data "event".data,
       jsonField "content".data c]
    | .speech ts sp c =>
      [jsonField "timestamp".data ts, jsonField "type".data "speech".data,
       jsonField "speaker".data sp, jsonField "content".data c]
    | .other ts c =>
      [jsonField "timestamp".data ts, jsonField "type".data "other".data,
       jsonField "content".data c]
  "\x7b\n".data ++ joinWith ",\n".data (fields.map (fun f => "      ".data ++ f)) ++
    "\n    \x7d".data

/-- Embeds `json.dumps(\x7b"transcript": transcript_data\x7d, indent=2)`:
an empty record list prints inline, a non-empty one prints one record per
array slot. -/
def json_dumps_transcript (entries : List JsonEntry) : List Char :=
  match entries with
  | [] => "\x7b\n  \"transcript\": []\n\x7d".data
  | _ =>
    "\x7b\n  \"transcript\": [\n".data ++
      joinWith ",\n".data (entries.map (fun e => "    ".data ++ renderEntry e)) ++
      "\n  ]\n\x7d".data

/-- Embeds `format_transcript_for_export` (`transcript_utils.py`): the empty
string short-circuits to `""` before any branch; `txt` is the identity; `srt`
and `json` run their line loops; every other format falls through to the
final `return transcript_text`.  The `Except` records that the SRT branch can
raise an uncaught `ValueError`. -/
def format_transcript_for_export (transcript_text : String) (format : String) :
    Except Unit String :=
  if transcript_text = "" then .ok ""
  else if format = "txt" then .ok transcript_text
  else if format = "srt" then
    (srtLines 1 (splitOnChar '\n' transcript_text.data)).map
      (fun ls => ⟨joinWith ['\n'] ls⟩)
  else if format = "json" then
    .ok ⟨json_dumps_transcript (jsonEntries (splitOnChar '\n' transcript_text.data))⟩
  else .ok transcript_text

/-- The exact `HH:MM:SS,mmm` shape with `mmm = 000` required by the spec of
the SRT time fields. -/
def isSrtShape : List Char → Bool
  | [h1, h2, c1, m1, m2, c2, s1, s2, c3, z1, z2, z3] =>
    h1.isDigit && h2.isDigit && (c1 == ':') && m1.isDigit && m2.isDigit &&
      (c2 == ':') && s1.isDigit && s2.isDigit && (c3 == ',') &&
      (z1 == '0') && (z2 == '0') && (z3 == '0')
  | _ => false

/-! ### Claim C5: chunk count -/

/-- Claim C5, counterexample.  The claim states the splitter produces
`ceil(total/chunk)` chunks "with a minimum of 1" for every decodable input, but
a decodable zero-duration input (an empty audio file) yields `0` chunks: the
code has no minimum-1 clamp. -/
theorem c5_counterexample : num_chunks 0 60000 = 0 ∧ ¬ 1 ≤ num_chunks 0 60000 := by
  constructor
  · rfl
  · decide

/-- Helper: the code's `floor + carry` chunk count agrees with the ceiling
division formula, stated over an explicit quotient and remainder. -/
theorem num_chunks_eq_ceil (dur q r : Nat) (hdur : 0 < dur) (hr : r < dur) :
    num_chunks (dur * q + r) dur = (dur * q + r + dur - 1) / dur := by
  have hdiv : (dur * q + r) / dur = q := by
    rw [Nat.mul_add_div hdur, Nat.div_eq_of_lt hr, Nat.add_zero]
  have hmod : (dur * q + r) % dur = r := by
    rw [Nat.mul_add_mod, Nat.mod_eq_of_lt hr]
  rcases Nat.eq_zero_or_pos r with hz | hp
  · subst hz
    have h1 : dur * q + 0 + dur - 1 = dur * q + (dur - 1) := by omega
    have hdiv2 : dur * q / dur = q := by simpa using hdiv
    rw [h1, Nat.mul_add_div hdur, Nat.div_eq_of_lt (show dur - 1 < dur by omega)]
    simp [num_chunks, hmod, hdiv, hdiv2]
  · have h1 : dur * q + r + dur - 1 = dur * (q + 1) + (r - 1) := by
      have hmul : dur * (q + 1) = dur * q + dur := by ring
      omega
    rw [h1, Nat.mul_add_div hdur, Nat.div_eq_of_lt (show r - 1 < dur by omega)]
    simp [num_chunks, hmod, hdiv, hp]

/-- Helper: the chunk count is at least 1 whenever the duration is positive. -/
theorem one_le_num_chunks (total dur : Nat) (htotal : 0 < total) (hdur : 0 < dur) :
    1 ≤ num_chunks total dur := by
  unfold num_chunks
  rcases Nat.eq_zero_or_pos (total % dur) with hz | hp
  · have h4 : 0 < total / dur :=
      Nat.div_pos (Nat.le_of_dvd htotal (Nat.dvd_of_mod_eq_zero hz)) hdur
    rw [hz]
    simpa using h4
  · rw [if_pos hp]
    exact Nat.le_add_left 1 _

/-- Claim C5, amended: for every input of positive duration the splitter
produces exactly `ceil(total_duration_ms / chunk_duration_ms)` chunks, which is
automatically at least 1; in particular a 150000 ms audio with
`chunk_duration_ms = 60000` splits into exactly 3 chunks.  A zero-duration
input yields 0 chunks instead of the claimed minimum of 1. -/
theorem c5_theorem :
    (∀ total dur : Nat, 0 < total → 0 < dur →
      num_chunks total dur = (total + dur - 1) / dur ∧ 1 ≤ num_chunks total dur) ∧
    num_chunks 150000 60000 = 3 := by
  constructor
  · intro total dur htotal hdur
    obtain ⟨q, r, hrlt, htot⟩ : ∃ q r, r < dur ∧ total = dur * q + r :=
      ⟨total / dur, total % dur, Nat.mod_lt _ hdur, (Nat.div_add_mod total dur).symm⟩
    subst htot
    exact ⟨num_chunks_eq_ceil dur q r hdur hrlt,
           one_le_num_chunks _ dur htotal hdur⟩
  · rfl

/-- Claim C5, witness: the amended theorem applied to the concrete
150000 ms / 60000 ms instance. -/
theorem c5_witness :
    num_chunks 150000 60000 = (150000 + 60000 - 1) / 60000 ∧
    1 ≤ num_chunks 150000 60000 :=
  c5_theorem.1 150000 60000 (by omega) (by omega)

/-! ### Claim C3: fallback trigger boundary -/

/-- Claim C3: with `num_chunks = 5` and success threshold `0.8`, any four
successful chunk transcriptions are accepted and stitched with
`combine_transcriptions`, while any three successes trigger the whole-file
fallback call. -/
theorem c3_theorem :
    (∀ ts : List String, ts.length = 4 →
      processLargeFileDecision ts 5 = .stitched (combine_transcriptions ts)) ∧
    (∀ ts : List String, ts.length = 3 →
      processLargeFileDecision ts 5 = .fallbackWholeFile) := by
  constructor
  · intro ts hlen
    have hne : ts ≠ [] := by
      intro h
      rw [h] at hlen
      simp at hlen
    simp only [processLargeFileDecision, hlen]
    rw [if_pos ⟨hne, by omega⟩]
  · intro ts hlen
    simp only [processLargeFileDecision, hlen]
    rw [if_neg]
    intro h
    omega

/-- Claim C3, witness: the boundary applied to concrete lists of four and three
chunk transcripts. -/
theorem c3_witness :
    processLargeFileDecision ["a", "b", "c", "d"] 5 =
      .stitched (combine_transcriptions ["a", "b", "c", "d"]) ∧
    processLargeFileDecision ["a", "b", "c"] 5 = .fallbackWholeFile :=
  ⟨c3_theorem.1 ["a", "b", "c", "d"] rfl, c3_theorem.2 ["a", "b", "c"] rfl⟩

/-! ### Support lemmas: splitting, digits and decimal formatting -/

theorem takeWhile_append_all {p : Char → Bool} {xs : List Char}
    (h : ∀ c ∈ xs, p c = true) (ys : List Char) :
    (xs ++ ys).takeWhile p = xs ++ ys.takeWhile p := by
  induction xs with
  | nil => rfl
  | cons a l ih =>
    have hhead := h a (List.mem_cons_self a l)
    have htail := ih fun c hc => h c (List.mem_cons_of_mem a hc)
    simp [List.takeWhile_cons, hhead, htail]

theorem dropWhile_append_all {p : Char → Bool} {xs : List Char}
    (h : ∀ c ∈ xs, p c = true) (ys : List Char) :
    (xs ++ ys).dropWhile p = ys.dropWhile p := by
  induction xs with
  | nil => rfl
  | cons a l ih =>
    have hhead := h a (List.mem_cons_self a l)
    have htail := ih fun c hc => h c (List.mem_cons_of_mem a hc)
    simp [List.dropWhile_cons, hhead, htail]

theorem splitOnChar_ne_nil (sep : Char) (l : List Char) : splitOnChar sep l ≠ [] := by
  induction l with
  | nil => simp [splitOnChar]
  | cons c rest ih =>
    by_cases h : c = sep
    · simp [splitOnChar, h]
    · simp only [splitOnChar, if_neg h]
      cases hsp : splitOnChar sep rest with
      | nil => simp
      | cons a as => simp

theorem splitOnChar_no_sep (sep : Char) (xs : List Char)
    (h : ∀ c ∈ xs, c ≠ sep) : splitOnChar sep xs = [xs] := by
  induction xs with
  | nil => rfl
  | cons c rest ih =>
    have hc : c ≠ sep := h c (by simp)
    have hr := ih (fun d hd => h d (by simp [hd]))
    simp [splitOnChar, hc, hr]

theorem splitOnChar_append (sep : Char) (xs ys : List Char)
    (h : ∀ c ∈ xs, c ≠ sep) :
    splitOnChar sep (xs ++ sep :: ys) = xs :: splitOnChar sep ys := by
  induction xs with
  | nil => simp [splitOnChar]
  | cons c rest ih =>
    have hc : c ≠ sep := h c (by simp)
    have hr := ih (fun d hd => h d (by simp [hd]))
    simp [splitOnChar, hc, hr]

theorem matchTimestampLine_spec (ts content : List Char) (hne : ts ≠ [])
    (hts : ∀ c ∈ ts, isTsChar c = true) :
    matchTimestampLine ('[' :: (ts ++ ']' :: content)) = some (ts, content) := by
  have hclose : isTsChar ']' = false := rfl
  have h1 : (ts ++ ']' :: content).takeWhile isTsChar = ts := by
    rw [takeWhile_append_all hts]
    simp [List.takeWhile_cons, hclose]
  have h2 : (ts ++ ']' :: content).dropWhile isTsChar = ']' :: content := by
    rw [dropWhile_append_all hts]
    simp [List.dropWhile_cons, hclose]
  simp [matchTimestampLine, h1, h2, hne]

theorem digitChar_isDigit {n : Nat} (h : n < 10) : (Nat.digitChar n).isDigit = true := by
  interval_cases n <;> rfl

theorem digitVal_digitChar {n : Nat} (h : n < 10) : digitVal (Nat.digitChar n) = n := by
  interval_cases n <;> rfl

theorem digit_ne_colon {c : Char} (h : c.isDigit = true) : c ≠ ':' := by
  intro heq
  subst heq
  simp [Char.isDigit] at h

theorem digitsVal_append_singleton (xs : List Char) (c : Char) :
    digitsVal (xs ++ [c]) = digitsVal xs * 10 + digitVal c := by
  simp [digitsVal, List.foldl_append]

theorem natCharsAux_spec : ∀ fuel n, n < fuel →
    natCharsAux fuel n ≠ [] ∧ (∀ c ∈ natCharsAux fuel n, c.isDigit = true) ∧
      digitsVal (natCharsAux fuel n) = n := by
  intro fuel
  induction fuel with
  | zero => intro n h; omega
  | succ fuel ih =>
    intro n hn
    by_cases h10 : n < 10
    · refine ⟨by simp [natCharsAux, h10], ?_, ?_⟩
      · intro c hc
        simp only [natCharsAux, if_pos h10, List.mem_singleton] at hc
        subst hc
        exact digitChar_isDigit h10
      · simp only [natCharsAux, if_pos h10]
        simp [digitsVal, digitVal_digitChar h10]
    · have hdiv10 : n / 10 < fuel := by
        have hlt : n / 10 < n := Nat.div_lt_self (by omega) (by omega)
        omega
      obtain ⟨hne, hdig, hval⟩ := ih (n / 10) hdiv10
      have hmod : n % 10 < 10 := Nat.mod_lt _ (by omega)
      refine ⟨by simp [natCharsAux, h10], ?_, ?_⟩
      · intro c hc
        simp only [natCharsAux, if_neg h10, List.mem_append, List.mem_singleton] at hc
        rcases hc with hc | hc
        · exact hdig c hc
        · subst hc
          exact digitChar_isDigit hmod
      · simp only [natCharsAux, if_neg h10]
        rw [digitsVal_append_singleton, hval, digitVal_digitChar hmod]
        omega

theorem natChars_spec (n : Nat) :
    natChars n ≠ [] ∧ (∀ c ∈ natChars n, c.isDigit = true) ∧
      digitsVal (natChars n) = n :=
  natCharsAux_spec (n + 1) n (by omega)

theorem pad2_spec (n : Nat) :
    pad2 n ≠ [] ∧ (∀ c ∈ pad2 n, c.isDigit = true) ∧ digitsVal (pad2 n) = n := by
  obtain ⟨hne, hdig, hval⟩ := natChars_spec n
  by_cases h : n < 10
  · refine ⟨by simp [pad2, h], ?_, ?_⟩
    · intro c hc
      simp only [pad2, if_pos h, List.mem_cons] at hc
      rcases hc with hc | hc
      · subst hc; rfl
      · exact hdig c hc
    · simp only [pad2, if_pos h]
      have hz : digitsVal ('0' :: natChars n) = digitsVal (natChars n) := by
        simp [digitsVal, digitVal]
      rw [hz, hval]
  · refine ⟨by simpa [pad2, h] using hne, ?_, ?_⟩
    · intro c hc
      simp only [pad2, if_neg h] at hc
      exact hdig c hc
    · simp only [pad2, if_neg h]
      exact hval

theorem toNatOpt_of (l : List Char) (hne : l ≠ [])
    (hdig : ∀ c ∈ l, c.isDigit = true) : toNatOpt l = some (digitsVal l) := by
  simp only [toNatOpt]
  rw [if_neg (by simpa [List.isEmpty_iff] using hne),
      if_pos (by exact List.all_eq_true.mpr hdig)]

theorem toNatOpt_pad2 (n : Nat) : toNatOpt (pad2 n) = some n := by
  obtain ⟨hne, hdig, hval⟩ := pad2_spec n
  rw [toNatOpt_of (pad2 n) hne hdig, hval]

theorem isTsChar_of_digits {l : List Char} (h : ∀ c ∈ l, c.isDigit = true) :
    ∀ c ∈ l, isTsChar c = true := by
  intro c hc
  simp [isTsChar, h c hc]

/-- Helper: full evaluation of `adjustLine` on a line carrying a 2-part
timestamp with digit-only fields: the result is again 2-part, the minute field
is `(minutes + base) % 60` — the hour carry is discarded — and the seconds
value is unchanged. -/
theorem adjustLine_two_part (base minutes seconds : Nat) (p1 p2 content : List Char)
    (h1 : p1 ≠ []) (h2 : p2 ≠ [])
    (hd1 : ∀ c ∈ p1, c.isDigit = true) (hd2 : ∀ c ∈ p2, c.isDigit = true)
    (hm : toNatOpt p1 = some minutes) (hs : toNatOpt p2 = some seconds) :
    adjustLine base ('[' :: ((p1 ++ ':' :: p2) ++ ']' :: content)) =
      '[' :: (pad2 ((minutes + base) % 60) ++ ':' :: pad2 seconds ++ ']' :: content) := by
  have hts : ∀ c ∈ p1 ++ ':' :: p2, isTsChar c = true := by
    intro c hc
    rcases List.mem_append.mp hc with hc | hc
    · exact isTsChar_of_digits hd1 c hc
    · rcases List.mem_cons.mp hc with hc | hc
      · subst hc; rfl
      · exact isTsChar_of_digits hd2 c hc
  have hmatch := matchTimestampLine_spec (p1 ++ ':' :: p2) content (by simp [h1]) hts
  have hsplit : splitOnChar ':' (p1 ++ ':' :: p2) = [p1, p2] := by
    rw [splitOnChar_append ':' p1 p2 (fun c hc => digit_ne_colon (hd1 c hc)),
        splitOnChar_no_sep ':' p2 (fun c hc => digit_ne_colon (hd2 c hc))]
  have hmin : (if 60 ≤ minutes + base then (minutes + base) % 60 else minutes + base) =
      (minutes + base) % 60 := by
    by_cases hc : 60 ≤ minutes + base
    · rw [if_pos hc]
    · rw [if_neg hc, Nat.mod_eq_of_lt (by omega)]
  simp only [adjustLine, hmatch, hsplit, hm, hs, hmin]

/-- Helper: full evaluation of `adjustLine` on a line carrying a 3-part
timestamp with digit-only fields: minutes become `(minutes + base) % 60` and
the carry `(minutes + base) / 60` is added to the hours. -/
theorem adjustLine_three_part (base hours minutes seconds : Nat)
    (p1 p2 p3 content : List Char)
    (h1 : p1 ≠ []) (h2 : p2 ≠ []) (h3 : p3 ≠ [])
    (hd1 : ∀ c ∈ p1, c.isDigit = true) (hd2 : ∀ c ∈ p2, c.isDigit = true)
    (hd3 : ∀ c ∈ p3, c.isDigit = true)
    (hh : toNatOpt p1 = some hours) (hm : toNatOpt p2 = some minutes)
    (hs : toNatOpt p3 = some seconds) :
    adjustLine base ('[' :: ((p1 ++ ':' :: (p2 ++ ':' :: p3)) ++ ']' :: content)) =
      '[' :: (pad2 (hours + (minutes + base) / 60) ++ ':' ::
        pad2 ((minutes + base) % 60) ++ ':' :: pad2 seconds ++ ']' :: content) := by
  have hts : ∀ c ∈ p1 ++ ':' :: (p2 ++ ':' :: p3), isTsChar c = true := by
    intro c hc
    rcases List.mem_append.mp hc with hc | hc
    · exact isTsChar_of_digits hd1 c hc
    · rcases List.mem_cons.mp hc with hc | hc
      · subst hc; rfl
      · rcases List.mem_append.mp hc with hc | hc
        · exact isTsChar_of_digits hd2 c hc
        · rcases List.mem_cons.mp hc with hc | hc
          · subst hc; rfl
          · exact isTsChar_of_digits hd3 c hc
  have hmatch := matchTimestampLine_spec (p1 ++ ':' :: (p2 ++ ':' :: p3)) content
    (by simp [h1]) hts
  have hsplit : splitOnChar ':' (p1 ++ ':' :: (p2 ++ ':' :: p3)) = [p1, p2, p3] := by
    rw [splitOnChar_append ':' p1 _ (fun c hc => digit_ne_colon (hd1 c hc)),
        splitOnChar_append ':' p2 p3 (fun c hc => digit_ne_colon (hd2 c hc)),
        splitOnChar_no_sep ':' p3 (fun c hc => digit_ne_colon (hd3 c hc))]
  have hmin : (if 60 ≤ minutes + base then (minutes + base) % 60 else minutes + base) =
      (minutes + base) % 60 := by
    by_cases hc : 60 ≤ minutes + base
    · rw [if_pos hc]
    · rw [if_neg hc, Nat.mod_eq_of_lt (by omega)]
  have hhour : (if 60 ≤ minutes + base then hours + (minutes + base) / 60 else hours) =
      hours + (minutes + base) / 60 := by
    by_cases hc : 60 ≤ minutes + base
    · rw [if_pos hc]
    · rw [if_neg hc, Nat.div_eq_of_lt (by omega), Nat.add_zero]
  simp only [adjustLine, hmatch, hsplit, hh, hm, hs, hmin, hhour]

/-! ### Claim C1: rebasing a 2-part timestamp -/

/-- Claim C1, counterexample.  The claim states the rebased 2-part minute
field is `minutes + base_minutes`, unbounded past 59.  With chunk index 30 and
`chunk_duration_ms = 120000` we get `base_minutes = 60`, so the claim demands
`[30:00]` become `[90:00]`; the code instead wraps the minutes modulo 60 and
silently discards the hour carry, re-emitting `[30:00]`. -/
theorem c1_counterexample :
    adjust_chunk_timestamps "[30:00] hi" 30 120000 = "[30:00] hi" ∧
      adjust_chunk_timestamps "[30:00] hi" 30 120000 ≠ "[90:00] hi" := by
  have h : adjust_chunk_timestamps "[30:00] hi" 30 120000 = "[30:00] hi" := rfl
  refine ⟨h, ?_⟩
  rw [h]
  decide

/-- Claim C1, amended: a line with a 2-part digit timestamp is re-emitted as a
2-part timestamp (no hours component is ever introduced) whose minute field is
`(minutes + base_minutes) % 60` — not the unbounded sum: the hour carry of the
wrap at 60 is silently discarded — with the seconds value unchanged, where
`base_minutes = (chunk_index * chunk_duration_ms) / 60000` as in the rebaser. -/
theorem c1_theorem (chunk_index chunk_duration_ms minutes seconds : Nat)
    (p1 p2 content : List Char) (h1 : p1 ≠ []) (h2 : p2 ≠ [])
    (hd1 : ∀ c ∈ p1, c.isDigit = true) (hd2 : ∀ c ∈ p2, c.isDigit = true)
    (hm : toNatOpt p1 = some minutes) (hs : toNatOpt p2 = some seconds) :
    adjustLine (chunk_index * chunk_duration_ms / 60000)
        ('[' :: ((p1 ++ ':' :: p2) ++ ']' :: content)) =
      '[' :: (pad2 ((minutes + chunk_index * chunk_duration_ms / 60000) % 60) ++
        ':' :: pad2 seconds ++ ']' :: content) :=
  adjustLine_two_part (chunk_index * chunk_duration_ms / 60000) minutes seconds
    p1 p2 content h1 h2 hd1 hd2 hm hs

/-- Claim C1, witness: the amended behaviour at chunk index 30,
`chunk_duration_ms = 120000`, on the line `[30:00] hi`. -/
theorem c1_witness :
    adjustLine (30 * 120000 / 60000)
        ('[' :: ((("30" : String).data ++ ':' :: ("00" : String).data) ++
          ']' :: (" hi" : String).data)) =
      '[' :: (pad2 ((30 + 30 * 120000 / 60000) % 60) ++
        ':' :: pad2 0 ++ ']' :: (" hi" : String).data) :=
  c1_theorem 30 120000 30 0 ("30" : String).data ("00" : String).data
    (" hi" : String).data (by decide) (by decide) (by decide) (by decide)
    (by decide) (by decide)

/-! ### Claim C6: treatment of the terminal marker by the rebaser -/

/-- Claim C6, counterexample.  The claim states an `[END]` line passes through
`adjust_chunk_timestamps` unchanged at its relative position; the code instead
removes it: the output of a two-line transcript ending in `[END]` is the single
rebased first line, and no output line trims to `[END]`. -/
theorem c6_counterexample :
    adjust_chunk_timestamps "[00:01] hi\n[END]" 0 120000 = "[00:01] hi" ∧
      ((splitOnChar '\n' ("[00:01] hi" : String).data).all
        fun l => !(isEndLine l)) = true := by
  refine ⟨rfl, ?_⟩
  decide

/-- Claim C6, amended: the rebaser removes every `[END]` line (and every blank
line); all remaining lines keep their relative order, each rewritten by
`adjustLine`, and a line that fails the timestamp match passes through
unchanged. -/
theorem c6_theorem (base : Nat) (lines : List (List Char)) :
    adjustLines base lines =
      (lines.filter fun l => !(isBlankLine l || isEndLine l)).map (adjustLine base) ∧
    ∀ l, matchTimestampLine l = none → adjustLine base l = l := by
  constructor
  · induction lines with
    | nil => rfl
    | cons l rest ih =>
      by_cases h : (isBlankLine l || isEndLine l) = true
      · have hp : (!(isBlankLine l || isEndLine l)) = false := by
          rw [h]
          rfl
        simp only [adjustLines, h, if_true]
        rw [ih, List.filter_cons, hp]
        simp
      · have h0 : (isBlankLine l || isEndLine l) = false := by
          revert h
          cases isBlankLine l || isEndLine l <;> simp
        have hp : (!(isBlankLine l || isEndLine l)) = true := by
          rw [h0]
          rfl
        simp only [adjustLines, h0, Bool.false_eq_true, if_false]
        rw [ih, List.filter_cons, hp]
        simp
  · intro l h
    simp [adjustLine, h]

/-- Claim C6, witness: the amended behaviour on a concrete line list with an
`[END]` line, a blank line, and an unparseable line. -/
theorem c6_witness :
    adjustLines 2 [("[END]" : String).data, ("xyz" : String).data] =
      [adjustLine 2 ("xyz" : String).data] ∧
    adjustLine 2 ("xyz" : String).data = ("xyz" : String).data := by
  refine ⟨?_, (c6_theorem 2 []).2 ("xyz" : String).data (by decide)⟩
  rw [(c6_theorem 2 [("[END]" : String).data, ("xyz" : String).data]).1]
  decide

/-! ### Claim C7: timestamp round-trip at offset zero -/

/-- Claim C7, counterexample.  `[75:30]` is a 2-part timestamp of the spec's
own grammar (which declares 2-part minutes unbounded past 59), yet rebasing it
with chunk index 0 — a zero offset, i.e. `format(parse(s))` — yields
`[15:30]`, not the original string: the parse/format pair is not a round trip
on minutes of 60 and above. -/
theorem c7_counterexample :
    adjust_chunk_timestamps "[75:30]" 0 120000 = "[15:30]" ∧
      adjust_chunk_timestamps "[75:30]" 0 120000 ≠ "[75:30]" := by
  have h : adjust_chunk_timestamps "[75:30]" 0 120000 = "[15:30]" := rfl
  refine ⟨h, ?_⟩
  rw [h]
  decide

/-- Claim C7, amended: the round trip `format(parse(s)) = s` holds for every
timestamp whose fields are written in canonical zero-padded form and whose
minutes are at most 59, in both the 2-part and the 3-part format. -/
theorem c7_theorem (hours minutes seconds : Nat) (hm : minutes ≤ 59) :
    adjustLine 0 ('[' :: ((pad2 minutes ++ ':' :: pad2 seconds) ++ ']' :: [])) =
      '[' :: ((pad2 minutes ++ ':' :: pad2 seconds) ++ ']' :: []) ∧
    adjustLine 0 ('[' :: ((pad2 hours ++ ':' ::
        (pad2 minutes ++ ':' :: pad2 seconds)) ++ ']' :: [])) =
      '[' :: ((pad2 hours ++ ':' :: (pad2 minutes ++ ':' :: pad2 seconds)) ++
        ']' :: []) := by
  obtain ⟨hne1, hdig1, hv1⟩ := pad2_spec hours
  obtain ⟨hne2, hdig2, hv2⟩ := pad2_spec minutes
  obtain ⟨hne3, hdig3, hv3⟩ := pad2_spec seconds
  have e1 := adjustLine_two_part 0 minutes seconds (pad2 minutes) (pad2 seconds) []
    hne2 hne3 hdig2 hdig3 (toNatOpt_pad2 minutes) (toNatOpt_pad2 seconds)
  have e2 := adjustLine_three_part 0 hours minutes seconds (pad2 hours)
    (pad2 minutes) (pad2 seconds) [] hne1 hne2 hne3 hdig1 hdig2 hdig3
    (toNatOpt_pad2 hours) (toNatOpt_pad2 minutes) (toNatOpt_pad2 seconds)
  have hmod : (minutes + 0) % 60 = minutes := by
    rw [Nat.add_zero, Nat.mod_eq_of_lt (by omega)]
  have hdiv : hours + (minutes + 0) / 60 = hours := by
    rw [Nat.add_zero, Nat.div_eq_of_lt (by omega), Nat.add_zero]
  constructor
  · rw [e1, hmod]
  · rw [e2, hmod, hdiv]
    simp [List.append_assoc]

/-- Claim C7, witness: the round trip on the concrete timestamps `[05:30]` and
`[01:05:30]`. -/
theorem c7_witness :
    adjustLine 0 ('[' :: ((pad2 5 ++ ':' :: pad2 30) ++ ']' :: [])) =
      '[' :: ((pad2 5 ++ ':' :: pad2 30) ++ ']' :: []) ∧
    adjustLine 0 ('[' :: ((pad2 1 ++ ':' :: (pad2 5 ++ ':' :: pad2 30)) ++
        ']' :: [])) =
      '[' :: ((pad2 1 ++ ':' :: (pad2 5 ++ ':' :: pad2 30)) ++ ']' :: []) :=
  c7_theorem 1 5 30 (by omega)

/-! ### Support lemmas for the Stitcher -/

theorem splitOnChar_mem_not_sep (sep : Char) (x : List Char) :
    ∀ l ∈ splitOnChar sep x, ∀ c ∈ l, c ≠ sep := by
  induction x with
  | nil =>
    intro l hl
    simp only [splitOnChar, List.mem_singleton] at hl
    subst hl
    intro c hc
    simp at hc
  | cons a rest ih =>
    intro l hl c hc
    by_cases h : a = sep
    · simp only [splitOnChar, if_pos h, List.mem_cons] at hl
      rcases hl with hl | hl
      · subst hl
        simp at hc
      · exact ih l hl c hc
    · cases hsp : splitOnChar sep rest with
      | nil => exact absurd hsp (splitOnChar_ne_nil sep rest)
      | cons m ms =>
        simp only [splitOnChar, if_neg h, hsp, List.mem_cons] at hl
        rcases hl with hl | hl
        · subst hl
          rcases List.mem_cons.mp hc with hc | hc
          · subst hc
            exact h
          · have hmem : m ∈ splitOnChar sep rest := by
              rw [hsp]
              exact List.mem_cons_self m ms
            exact ih m hmem c hc
        · have hmem : l ∈ splitOnChar sep rest := by
            rw [hsp]
            exact List.mem_cons_of_mem m hl
          exact ih l hmem c hc

theorem combineLines_mem_not_nl (chunks : List (List Char)) :
    ∀ l ∈ combineLines chunks, ∀ c ∈ l, c ≠ '\n' := by
  induction chunks with
  | nil =>
    intro l hl
    simp [combineLines] at hl
  | cons chunk rest ih =>
    cases rest with
    | nil =>
      intro l hl
      exact splitOnChar_mem_not_sep '\n' chunk l hl
    | cons c2 rest2 =>
      intro l hl
      simp only [combineLines, List.mem_append] at hl
      rcases hl with hl | hl
      · exact splitOnChar_mem_not_sep '\n' chunk l (List.mem_of_mem_filter hl)
      · exact ih l hl

theorem combineLines_ne_nil (chunks : List (List Char)) (h : chunks ≠ []) :
    combineLines chunks ≠ [] := by
  induction chunks with
  | nil => exact absurd rfl h
  | cons chunk rest ih =>
    cases rest with
    | nil => exact splitOnChar_ne_nil '\n' chunk
    | cons c2 rest2 =>
      simp only [combineLines]
      intro hap
      rcases List.append_eq_nil.mp hap with ⟨h1, h2⟩
      exact ih (by simp) h2

theorem splitOnChar_joinWith (sep : Char) :
    ∀ ls : List (List Char), ls ≠ [] → (∀ l ∈ ls, ∀ c ∈ l, c ≠ sep) →
      splitOnChar sep (joinWith [sep] ls) = ls := by
  intro ls
  induction ls with
  | nil =>
    intro hne _
    exact absurd rfl hne
  | cons l rest ih =>
    intro _ h
    cases rest with
    | nil => exact splitOnChar_no_sep sep l (h l (by simp))
    | cons l2 rest2 =>
      have hjoin : joinWith [sep] (l :: l2 :: rest2) =
          l ++ sep :: joinWith [sep] (l2 :: rest2) := by
        simp [joinWith]
      rw [hjoin, splitOnChar_append sep l _ (h l (by simp)),
          ih (by simp) (fun m hm c hc => h m (by simp [hm]) c hc)]

theorem filter_after_not (p : List Char → Bool) (xs : List (List Char)) :
    (xs.filter fun x => !(p x)).filter p = [] := by
  induction xs with
  | nil => rfl
  | cons x xs ih =>
    by_cases h : p x = true
    · have hneg : (!(p x)) = false := by
        rw [h]
        rfl
      simp [List.filter_cons, hneg, ih]
    · have h0 : p x = false := by
        revert h
        cases p x <;> simp
      have hpos : (!(p x)) = true := by
        rw [h0]
        rfl
      simp [List.filter_cons, hpos, h0, ih]

theorem combineLines_filter_end (chunks : List (List Char)) :
    (combineLines chunks).filter isEndLine =
      ((chunks.getLast?).map fun last =>
        (splitOnChar '\n' last).filter isEndLine).getD [] := by
  induction chunks with
  | nil => rfl
  | cons chunk rest ih =>
    cases rest with
    | nil => rfl
    | cons c2 rest2 =>
      simp only [combineLines, List.filter_append]
      rw [filter_after_not isEndLine (splitOnChar '\n' chunk), List.nil_append, ih,
          List.getLast?_cons_cons]

/-! ### Claim C4: stitch marker uniqueness -/

/-- Claim C4, counterexample.  The claim says the stitched output contains at
most one `[END]` line for every list of chunk transcripts, but the last chunk
is passed through unfiltered: a single chunk carrying two `[END]` lines
produces a stitched transcript with two `[END]` lines. -/
theorem c4_counterexample :
    countEnd (splitOnChar '\n' (combine_transcriptions ["[END]\n[END]"]).data) = 2 ∧
      ¬ countEnd (splitOnChar '\n' (combine_transcriptions ["[END]\n[END]"]).data) ≤ 1 := by
  refine ⟨by decide, by decide⟩

/-- Claim C4, amended: the `[END]` lines of the stitched output are exactly
the `[END]` lines of the last chunk (every earlier chunk's are removed), so
when each individual chunk carries at most one `[END]` line — the shape the
prompt requests — the output carries at most one, and it is the last
chunk's. -/
theorem c4_theorem (chunks : List String)
    (h : ∀ c ∈ chunks, countEnd (splitOnChar '\n' c.data) ≤ 1) :
    countEnd (splitOnChar '\n' (combine_transcriptions chunks).data) ≤ 1 ∧
    (splitOnChar '\n' (combine_transcriptions chunks).data).filter isEndLine =
      ((chunks.getLast?).map fun last =>
        (splitOnChar '\n' last.data).filter isEndLine).getD [] := by
  cases chunks with
  | nil => exact ⟨by decide, by decide⟩
  | cons c rest =>
    have hsplit : splitOnChar '\n' (combine_transcriptions (c :: rest)).data =
        combineLines ((c :: rest).map String.data) := by
      show splitOnChar '\n'
          (joinWith ['\n'] (combineLines ((c :: rest).map String.data))) = _
      exact splitOnChar_joinWith '\n' _
        (combineLines_ne_nil _ (by simp)) (combineLines_mem_not_nl _)
    have hlast : ((c :: rest).map String.data).getLast? =
        some (((c :: rest).getLast (by simp)).data) := by
      rw [List.getLast?_map, List.getLast?_eq_getLast (c :: rest) (by simp)]
      rfl
    have hfe := combineLines_filter_end ((c :: rest).map String.data)
    rw [hlast] at hfe
    have hmem : (c :: rest).getLast (by simp) ∈ c :: rest := List.getLast_mem _
    constructor
    · rw [show countEnd (splitOnChar '\n' (combine_transcriptions (c :: rest)).data) =
          ((combineLines ((c :: rest).map String.data)).filter isEndLine).length from by
        rw [countEnd, hsplit]]
      rw [hfe]
      exact h _ hmem
    · rw [hsplit, hfe, List.getLast?_eq_getLast (c :: rest) (by simp)]
      rfl

/-- Claim C4, witness: the amended statement on two concrete chunks each
carrying one `[END]` line. -/
theorem c4_witness :
    countEnd (splitOnChar '\n'
      (combine_transcriptions ["[00:01] a\n[END]", "[00:02] b\n[END]"]).data) ≤ 1 ∧
    (splitOnChar '\n'
      (combine_transcriptions ["[00:01] a\n[END]", "[00:02] b\n[END]"]).data).filter
        isEndLine =
      (((["[00:01] a\n[END]", "[00:02] b\n[END]"] : List String).getLast?).map
        fun last => (splitOnChar '\n' last.data).filter isEndLine).getD [] :=
  c4_theorem ["[00:01] a\n[END]", "[00:02] b\n[END]"] (by decide)

/-! ### Support lemmas for the sanitizer: contiguous-substring bounds -/

theorem infixCharsLen {t l : List Char} (h : t <:+: l) : t.length ≤ l.length := by
  obtain ⟨s, u, rfl⟩ := h
  simp [List.length_append]
  omega

theorem prefixSplitCases {t l1 l2 : List Char} (h : t <+: l1 ++ l2) :
    t <+: l1 ∨ ∃ t2, t = l1 ++ t2 ∧ t2 <+: l2 := by
  induction l1 generalizing t with
  | nil =>
    right
    exact ⟨t, by simp, by simpa using h⟩
  | cons a l1 ih =>
    cases t with
    | nil =>
      left
      exact ⟨a :: l1, rfl⟩
    | cons b t =>
      obtain ⟨u, hu⟩ := h
      injection hu with hb ht
      subst hb
      rcases ih ⟨u, ht⟩ with hc | ⟨t2, ht2, hp⟩
      · left
        obtain ⟨v, hv⟩ := hc
        exact ⟨v, by rw [List.cons_append, hv]⟩
      · right
        exact ⟨t2, by rw [ht2, List.cons_append], hp⟩

theorem infixConsCases {t l : List Char} {a : Char} (h : t <:+: a :: l) :
    t <+: a :: l ∨ t <:+: l := by
  obtain ⟨s, u, hsu⟩ := h
  cases s with
  | nil =>
    left
    exact ⟨u, by simpa using hsu⟩
  | cons b s =>
    right
    injection hsu with hb hrest
    exact ⟨s, u, hrest⟩

theorem infixAppendCases {t : List Char} (l1 l2 : List Char) (h : t <:+: l1 ++ l2) :
    t <:+: l1 ∨ t <:+: l2 ∨
      ∃ t1 t2, t = t1 ++ t2 ∧ t2 ≠ [] ∧ t1 <:+: l1 ∧ t2 <+: l2 := by
  induction l1 generalizing t with
  | nil =>
    right
    left
    simpa using h
  | cons a l1 ih =>
    rcases infixConsCases (show t <:+: a :: (l1 ++ l2) by simpa using h) with hp | hi
    · rcases prefixSplitCases (show t <+: (a :: l1) ++ l2 from hp) with
        hc | ⟨t2, ht2, hsuf⟩
      · left
        obtain ⟨u, hu⟩ := hc
        exact ⟨[], u, by simpa using hu⟩
      · by_cases htn : t2 = []
        · left
          subst htn
          rw [List.append_nil] at ht2
          subst ht2
          exact ⟨[], [], by simp⟩
        · right
          right
          exact ⟨a :: l1, t2, ht2, htn, ⟨[], [], by simp⟩, hsuf⟩
    · rcases ih hi with h1 | h2 | ⟨t1, t2, ht, htn, hi1, hp2⟩
      · left
        obtain ⟨s, u, hsu⟩ := h1
        refine ⟨a :: s, u, ?_⟩
        rw [← hsu]
        simp
      · right
        left
        exact h2
      · right
        right
        refine ⟨t1, t2, ht, htn, ?_, hp2⟩
        obtain ⟨s, u, hsu⟩ := hi1
        refine ⟨a :: s, u, ?_⟩
        rw [← hsu]
        simp

theorem infix_cons_of_not_mem {t l : List Char} {c : Char} (h : t <:+: c :: l)
    (hc : c ∉ t) : t <:+: l := by
  rcases infixConsCases h with hp | hi
  · cases t with
    | nil => exact ⟨[], l, rfl⟩
    | cons b t2 =>
      obtain ⟨u, hu⟩ := hp
      injection hu with hb _
      subst hb
      exact absurd (List.mem_cons_self _ _) hc
  · exact hi

theorem emitRun_infix_bound {t run : List Char} (h : t <:+: emitRun run) :
    t.length ≤ 31 := by
  by_cases hlen : 32 ≤ run.length
  · have he : emitRun run = redactedToken := by simp [emitRun, hlen]
    rw [he] at h
    have hl := infixCharsLen h
    have hr : redactedToken.length = 10 := rfl
    omega
  · have he : emitRun run = run := by simp [emitRun, hlen]
    rw [he] at h
    have hl := infixCharsLen h
    omega

/-- Helper: every all-alphanumeric contiguous substring of a sanitized message
has length at most 31 — runs of 32 or more were replaced by `[REDACTED]`,
whose own alphanumeric runs are short, and the replacement boundaries are
non-alphanumeric characters an alphanumeric substring cannot cross. -/
theorem sanitizeAux_alnum_infix_bound :
    ∀ rest run t, t <:+: sanitizeAux run rest →
      (∀ c ∈ t, c.isAlphanum = true) → t.length ≤ 31 := by
  intro rest
  induction rest with
  | nil =>
    intro run t h _
    exact emitRun_infix_bound (by simpa [sanitizeAux] using h)
  | cons c rest ih =>
    intro run t h halnum
    by_cases hc : c.isAlphanum = true
    · exact ih (run ++ [c]) t (by simpa [sanitizeAux, hc] using h) halnum
    · have h2 : t <:+: emitRun run ++ c :: sanitizeAux [] rest := by
        simpa [sanitizeAux, hc] using h
      rcases infixAppendCases (emitRun run) (c :: sanitizeAux [] rest) h2 with
        hl | hm | hr
      · exact emitRun_infix_bound hl
      · have hcm : c ∉ t := fun hmem => hc (halnum c hmem)
        exact ih [] t (infix_cons_of_not_mem hm hcm) halnum
      · obtain ⟨t1, t2, ht, htn, _, hp2⟩ := hr
        exfalso
        cases t2 with
        | nil => exact htn rfl
        | cons d t2' =>
          obtain ⟨u, hu⟩ := hp2
          injection hu with hd _
          subst hd
          have hcmem : d ∈ t := by
            rw [ht]
            exact List.mem_append.mpr (Or.inr (List.mem_cons_self _ _))
          exact hc (halnum d hcmem)

/-! ### Claim C2: sanitization of API-key-shaped tokens -/

/-- Claim C2: an error message embedding a 40-character alphanumeric token
never contains that token after sanitization.  `sanitize_error_message` is
modelled from the spec (its definition is absent from `src/`); any
contiguous occurrence of the token in the output would be an all-alphanumeric
substring of length 40, and the sanitized message has none longer than 31. -/
theorem c2_theorem (msg tok : String) (hlen : tok.data.length = 40)
    (halnum : ∀ c ∈ tok.data, c.isAlphanum = true)
    (hembed : tok.data <:+: msg.data) :
    ¬ tok.data <:+: (sanitize_error_message msg).data := by
  intro hinf
  have hb := sanitizeAux_alnum_infix_bound msg.data [] tok.data hinf halnum
  omega

/-- Claim C2, witness: a concrete message embedding a 40-character
alphanumeric token, on which the sanitized output no longer contains the
token. -/
theorem c2_witness :
    ("AAAAAAAAAAAAAAAAAAAAAAAAAAAAAAAAAAAAAAAA" : String).data.length = 40 ∧
    ¬ ("AAAAAAAAAAAAAAAAAAAAAAAAAAAAAAAAAAAAAAAA" : String).data <:+:
        (sanitize_error_message
          "upload failed: key AAAAAAAAAAAAAAAAAAAAAAAAAAAAAAAAAAAAAAAA invalid").data :=
  ⟨by decide,
   c2_theorem "upload failed: key AAAAAAAAAAAAAAAAAAAAAAAAAAAAAAAAAAAAAAAA invalid"
     "AAAAAAAAAAAAAAAAAAAAAAAAAAAAAAAAAAAAAAAA" (by decide) (by decide) (by decide)⟩

/-! ### Claim C8: JSON export of the empty transcript -/

/-- Claim C8: the code returns `""` for the empty transcript in every format,
including JSON — the falsy-input short circuit runs before the JSON branch —
whereas the spec and the repository's own test
(`test_format_transcript_for_export_empty_transcript`) require the empty
transcript document.  This evaluates the code at the failing input and records
the divergence. -/
theorem c8_theorem :
    format_transcript_for_export "" "json" = .ok "" ∧
      ("" : String) ≠ "\x7b\n  \"transcript\": []\n\x7d" :=
  ⟨rfl, by decide⟩

/-! ### Claim C10: unknown export formats -/

/-- Claim C10: for every format other than `txt`, `srt` and `json`,
`format_transcript_for_export` returns the transcript unchanged (the empty
transcript also returns itself via the short circuit). -/
theorem c10_theorem (t f : String) (h1 : f ≠ "txt") (h2 : f ≠ "srt")
    (h3 : f ≠ "json") : format_transcript_for_export t f = .ok t := by
  by_cases ht : t = ""
  · subst ht
    simp [format_transcript_for_export]
  · simp [format_transcript_for_export, ht, h1, h2, h3]

/-- Claim C10, witness: a concrete unknown format. -/
theorem c10_witness : format_transcript_for_export "[00:01] A: hi" "pdf" =
    .ok "[00:01] A: hi" :=
  c10_theorem "[00:01] A: hi" "pdf" (by decide) (by decide) (by decide)

/-! ### Support lemmas for the SRT time shape -/

theorem dropWhile_all_false {p : Char → Bool} {l : List Char}
    (h : ∀ c ∈ l, p c = false) : l.dropWhile p = l := by
  cases l with
  | nil => rfl
  | cons c rest => simp [List.dropWhile_cons, h c (by simp)]

theorem stripBrackets_wrap (ts : List Char) (hne : ts ≠ [])
    (hnb : ∀ c ∈ ts, isBracket c = false) :
    stripBrackets ('[' :: ts ++ [']']) = ts := by
  cases ts with
  | nil => exact absurd rfl hne
  | cons c ts2 =>
    have hopen : isBracket '[' = true := rfl
    have hclose : isBracket ']' = true := rfl
    have hc : isBracket c = false := hnb c (by simp)
    have h1 : ('[' :: (c :: ts2) ++ [']']).dropWhile isBracket =
        (c :: ts2) ++ [']'] := by
      simp [List.dropWhile_cons, hopen, hc]
    have h2 : ((c :: ts2) ++ [']']).reverse = ']' :: (ts2.reverse ++ [c]) := by
      simp
    have h3 : (']' :: (ts2.reverse ++ [c])).dropWhile isBracket =
        ts2.reverse ++ [c] := by
      rw [List.dropWhile_cons]
      simp only [hclose, if_true]
      apply dropWhile_all_false
      intro d hd
      rcases List.mem_append.mp hd with hd | hd
      · exact hnb d (by simp [List.mem_reverse.mp hd])
      · simp at hd
        subst hd
        exact hc
    show (((('[' :: (c :: ts2) ++ [']']).dropWhile
      isBracket).reverse).dropWhile isBracket).reverse = c :: ts2
    rw [h1, h2, h3]
    simp

theorem natChars_lt_10 {n : Nat} (h : n < 10) : natChars n = [Nat.digitChar n] := by
  simp [natChars, natCharsAux, h]

theorem natChars_two_digit {n : Nat} (h1 : 10 ≤ n) (h2 : n < 100) :
    natChars n = [Nat.digitChar (n / 10), Nat.digitChar (n % 10)] := by
  have hn : ¬ n < 10 := by omega
  have hd : n / 10 < 10 := by omega
  obtain ⟨k, hk⟩ : ∃ k, n = k + 1 := ⟨n - 1, by omega⟩
  subst hk
  simp [natChars, natCharsAux, hn, hd]

theorem pad2_two_digit {n : Nat} (h : n < 100) :
    ∃ d1 d2 : Char, pad2 n = [d1, d2] ∧ d1.isDigit = true ∧ d2.isDigit = true := by
  by_cases h10 : n < 10
  · exact ⟨'0', Nat.digitChar n, by simp [pad2, h10, natChars_lt_10 h10], rfl,
      digitChar_isDigit h10⟩
  · refine ⟨Nat.digitChar (n / 10), Nat.digitChar (n % 10), ?_, ?_, ?_⟩
    · simp [pad2, h10, natChars_two_digit (by omega) h]
    · exact digitChar_isDigit (by omega)
    · exact digitChar_isDigit (Nat.mod_lt _ (by omega))

theorem isSrtShape_time {t : Nat} (hlt : t < 86400) :
    isSrtShape (zfill8 (timedeltaStr t) ++ (",000" : String).data) = true := by
  have hcomma : (",000" : String).data = [',', '0', '0', '0'] := rfl
  have hdays : t / 86400 = 0 := Nat.div_eq_of_lt hlt
  have hmodt : t % 86400 = t := Nat.mod_eq_of_lt hlt
  obtain ⟨m1, m2, hm, hm1, hm2⟩ := pad2_two_digit (show t % 3600 / 60 < 100 by omega)
  obtain ⟨s1, s2, hs, hs1, hs2⟩ := pad2_two_digit (show t % 60 < 100 by omega)
  by_cases h10 : t / 3600 < 10
  · have htd : timedeltaStr t =
        Nat.digitChar (t / 3600) :: ':' :: m1 :: m2 :: ':' :: s1 :: s2 :: [] := by
      simp [timedeltaStr, hdays, hmodt, natChars_lt_10 h10, hm, hs]
    have hz : zfill8 (Nat.digitChar (t / 3600) :: ':' :: m1 :: m2 :: ':' ::
        s1 :: s2 :: []) = '0' :: Nat.digitChar (t / 3600) :: ':' :: m1 :: m2 ::
        ':' :: s1 :: s2 :: [] := by
      simp [zfill8, List.replicate]
    rw [htd, hz, hcomma]
    simp [isSrtShape, digitChar_isDigit h10, hm1, hm2, hs1, hs2]
  · have h24 : t / 3600 < 24 := by omega
    have htd : timedeltaStr t =
        Nat.digitChar (t / 3600 / 10) :: Nat.digitChar (t / 3600 % 10) ::
          ':' :: m1 :: m2 :: ':' :: s1 :: s2 :: [] := by
      simp [timedeltaStr, hdays, hmodt,
        natChars_two_digit (show 10 ≤ t / 3600 by omega) (by omega), hm, hs]
    have hz : zfill8 (Nat.digitChar (t / 3600 / 10) :: Nat.digitChar (t / 3600 % 10) ::
        ':' :: m1 :: m2 :: ':' :: s1 :: s2 :: []) =
        Nat.digitChar (t / 3600 / 10) :: Nat.digitChar (t / 3600 % 10) ::
        ':' :: m1 :: m2 :: ':' :: s1 :: s2 :: [] := by
      simp [zfill8]
    rw [htd, hz, hcomma]
    simp [isSrtShape, digitChar_isDigit (show t / 3600 / 10 < 10 by omega),
      digitChar_isDigit (show t / 3600 % 10 < 10 by omega), hm1, hm2, hs1, hs2]

theorem tsChar_not_bracket {c : Char} (h : isTsChar c = true) : isBracket c = false := by
  by_cases h1 : c = '['
  · subst h1
    exact absurd h (by decide)
  · by_cases h2 : c = ']'
    · subst h2
      exact absurd h (by decide)
    · simp [isBracket, h1, h2]

theorem tsChars_three {p1 p2 p3 : List Char}
    (hd1 : ∀ c ∈ p1, c.isDigit = true) (hd2 : ∀ c ∈ p2, c.isDigit = true)
    (hd3 : ∀ c ∈ p3, c.isDigit = true) :
    ∀ c ∈ p1 ++ ':' :: (p2 ++ ':' :: p3), isTsChar c = true := by
  intro c hc
  rcases List.mem_append.mp hc with hc | hc
  · exact isTsChar_of_digits hd1 c hc
  · rcases List.mem_cons.mp hc with hc | hc
    · subst hc
      rfl
    · rcases List.mem_append.mp hc with hc | hc
      · exact isTsChar_of_digits hd2 c hc
      · rcases List.mem_cons.mp hc with hc | hc
        · subst hc
          rfl
        · exact isTsChar_of_digits hd3 c hc

theorem srtStartTime_three (hv m s : Nat) (p1 p2 p3 : List Char)
    (hne1 : p1 ≠ [])
    (hd1 : ∀ c ∈ p1, c.isDigit = true) (hd2 : ∀ c ∈ p2, c.isDigit = true)
    (hd3 : ∀ c ∈ p3, c.isDigit = true)
    (h1 : toNatOpt p1 = some hv) (h2 : toNatOpt p2 = some m)
    (h3 : toNatOpt p3 = some s) :
    srtStartTime (p1 ++ ':' :: (p2 ++ ':' :: p3)) =
      zfill8 (timedeltaStr (hv * 3600 + m * 60 + s)) ++ (",000" : String).data := by
  have hnb : ∀ c ∈ p1 ++ ':' :: (p2 ++ ':' :: p3), isBracket c = false :=
    fun c hc => tsChar_not_bracket (tsChars_three hd1 hd2 hd3 c hc)
  have hnil : p1 ++ ':' :: (p2 ++ ':' :: p3) ≠ [] := by simp
  have hstrip := stripBrackets_wrap (p1 ++ ':' :: (p2 ++ ':' :: p3)) hnil hnb
  have hsplit : splitOnChar ':' (p1 ++ ':' :: (p2 ++ ':' :: p3)) = [p1, p2, p3] := by
    rw [splitOnChar_append ':' p1 _ (fun c hc => digit_ne_colon (hd1 c hc)),
        splitOnChar_append ':' p2 p3 (fun c hc => digit_ne_colon (hd2 c hc)),
        splitOnChar_no_sep ':' p3 (fun c hc => digit_ne_colon (hd3 c hc))]
  simp only [srtStartTime, convert_timestamp_to_srt, hstrip, hsplit, h1, h2, h3]

theorem srtStartTime_two (m s : Nat) (p2 p3 : List Char)
    (hne2 : p2 ≠ [])
    (hd2 : ∀ c ∈ p2, c.isDigit = true) (hd3 : ∀ c ∈ p3, c.isDigit = true)
    (h2 : toNatOpt p2 = some m) (h3 : toNatOpt p3 = some s) :
    srtStartTime (p2 ++ ':' :: p3) =
      zfill8 (timedeltaStr (m * 60 + s)) ++ (",000" : String).data := by
  have hts : ∀ c ∈ p2 ++ ':' :: p3, isTsChar c = true := by
    intro c hc
    rcases List.mem_append.mp hc with hc | hc
    · exact isTsChar_of_digits hd2 c hc
    · rcases List.mem_cons.mp hc with hc | hc
      · subst hc
        rfl
      · exact isTsChar_of_digits hd3 c hc
  have hnb : ∀ c ∈ p2 ++ ':' :: p3, isBracket c = false :=
    fun c hc => tsChar_not_bracket (hts c hc)
  have hnil : p2 ++ ':' :: p3 ≠ [] := by simp
  have hstrip := stripBrackets_wrap (p2 ++ ':' :: p3) hnil hnb
  have hsplit : splitOnChar ':' (p2 ++ ':' :: p3) = [p2, p3] := by
    rw [splitOnChar_append ':' p2 p3 (fun c hc => digit_ne_colon (hd2 c hc)),
        splitOnChar_no_sep ':' p3 (fun c hc => digit_ne_colon (hd3 c hc))]
  simp only [srtStartTime, convert_timestamp_to_srt, hstrip, hsplit, h2, h3]

/-! ### Claim C9: SRT time format -/

/-- Claim C9, counterexample.  `[25:00:00] A: hi` is a parseable, non-`[END]`
line, but its start time crosses 24 hours, so Python's `str(timedelta)`
day-prefixed form leaks into the SRT output: both emitted times read
`1 day, 1:00:0X,000`, which is not of the claimed shape `HH:MM:SS,mmm`. -/
theorem c9_counterexample :
    format_transcript_for_export "[25:00:00] A: hi" "srt" =
      .ok "1\n1 day, 1:00:00,000 --> 1 day, 1:00:03,000\nA: hi\n" ∧
    isSrtShape ("1 day, 1:00:00,000" : String).data = false :=
  ⟨rfl, by decide⟩

/-- Claim C9, amended: for every parseable timestamp line whose start time
plus the fixed 3-second window stays below 24 hours, the SRT encoder emits a
caption whose start and end times both have the exact shape `HH:MM:SS,mmm`
with `mmm = 000`; at or beyond 24 hours the day-prefixed `timedelta` form
appears instead.  Both the 3-part and the 2-part timestamp case are covered
(for the 2-part case `p2`/`p3` are the minute/second fields). -/
theorem c9_theorem (counter hv m s : Nat) (p1 p2 p3 content : List Char)
    (hne1 : p1 ≠ []) (hne2 : p2 ≠ []) (hne3 : p3 ≠ [])
    (hd1 : ∀ c ∈ p1, c.isDigit = true) (hd2 : ∀ c ∈ p2, c.isDigit = true)
    (hd3 : ∀ c ∈ p3, c.isDigit = true)
    (hv1 : toNatOpt p1 = some hv) (hv2 : toNatOpt p2 = some m)
    (hv3 : toNatOpt p3 = some s)
    (hbound : hv * 3600 + m * 60 + s + 3 < 86400) :
    (srtEntryFor counter (p1 ++ ':' :: (p2 ++ ':' :: p3)) content =
      .ok [natChars counter,
        srtStartTime (p1 ++ ':' :: (p2 ++ ':' :: p3)) ++ (" --> " : String).data ++
          srtEndTime (hv * 3600 + m * 60 + s),
        stripChars content, []]) ∧
    isSrtShape (srtStartTime (p1 ++ ':' :: (p2 ++ ':' :: p3))) = true ∧
    isSrtShape (srtEndTime (hv * 3600 + m * 60 + s)) = true ∧
    (srtEntryFor counter (p2 ++ ':' :: p3) content =
      .ok [natChars counter,
        srtStartTime (p2 ++ ':' :: p3) ++ (" --> " : String).data ++
          srtEndTime (m * 60 + s),
        stripChars content, []]) ∧
    isSrtShape (srtStartTime (p2 ++ ':' :: p3)) = true ∧
    isSrtShape (srtEndTime (m * 60 + s)) = true := by
  have hsplit3 : splitOnChar ':' (p1 ++ ':' :: (p2 ++ ':' :: p3)) = [p1, p2, p3] := by
    rw [splitOnChar_append ':' p1 _ (fun c hc => digit_ne_colon (hd1 c hc)),
        splitOnChar_append ':' p2 p3 (fun c hc => digit_ne_colon (hd2 c hc)),
        splitOnChar_no_sep ':' p3 (fun c hc => digit_ne_colon (hd3 c hc))]
  have hsplit2 : splitOnChar ':' (p2 ++ ':' :: p3) = [p2, p3] := by
    rw [splitOnChar_append ':' p2 p3 (fun c hc => digit_ne_colon (hd2 c hc)),
        splitOnChar_no_sep ':' p3 (fun c hc => digit_ne_colon (hd3 c hc))]
  have hmapM3 : (splitOnChar ':' (p1 ++ ':' :: (p2 ++ ':' :: p3))).mapM toNatOpt =
      some [hv, m, s] := by
    rw [hsplit3]
    simp [List.mapM.loop, hv1, hv2, hv3, Option.bind]
  have hmapM2 : (splitOnChar ':' (p2 ++ ':' :: p3)).mapM toNatOpt = some [m, s] := by
    rw [hsplit2]
    simp [List.mapM.loop, hv2, hv3, Option.bind]
  refine ⟨?_, ?_, ?_, ?_, ?_, ?_⟩
  · simp only [srtEntryFor, hmapM3]
  · rw [srtStartTime_three hv m s p1 p2 p3 hne1 hd1 hd2 hd3 hv1 hv2 hv3]
    exact isSrtShape_time (by omega)
  · show isSrtShape (zfill8 (timedeltaStr (hv * 3600 + m * 60 + s + 3)) ++
      (",000" : String).data) = true
    exact isSrtShape_time (by omega)
  · simp only [srtEntryFor, hmapM2]
  · rw [srtStartTime_two m s p2 p3 hne2 hd2 hd3 hv2 hv3]
    exact isSrtShape_time (by omega)
  · show isSrtShape (zfill8 (timedeltaStr (m * 60 + s + 3)) ++
      (",000" : String).data) = true
    exact isSrtShape_time (by omega)

/-- Claim C9, witness: the amended statement at the concrete parseable line
fields `00`, `00`, `05` (i.e. the timestamp `[00:00:05]` of the repository's
own test data). -/
theorem c9_witness :
    isSrtShape (srtStartTime (("00" : String).data ++ ':' ::
      (("00" : String).data ++ ':' :: ("05" : String).data))) = true ∧
    isSrtShape (srtEndTime (0 * 3600 + 0 * 60 + 5)) = true :=
  ⟨(c9_theorem 1 0 0 5 ("00" : String).data ("00" : String).data
      ("05" : String).data ("A: hi" : String).data (by decide) (by decide)
      (by decide) (by decide) (by decide) (by decide) (by decide) (by decide)
      (by decide) (by omega)).2.1,
   (c9_theorem 1 0 0 5 ("00" : String).data ("00" : String).data
      ("05" : String).data ("A: hi" : String).data (by decide) (by decide)
      (by decide) (by decide) (by decide) (by decide) (by decide) (by decide)
      (by decide) (by omega)).2.2.1⟩

end ExactTranscriber
